import Mathlib

set_option autoImplicit false

/-!
Verification of the layr component serialization / remote-invocation core.

The development shallowly embeds:
* `AttributeSelector` (the recursive selector algebra from the source file
  defining `get`, `set`, `includes`, `add`, `remove`, `normalize`);
* the component-graph serializer/deserializer value model (the implementation
  is not part of the provided sources, only its tests and its callers, so it
  is modelled from the specification where noted);
* the `ComponentClient` send path: `_serializeQuery` with its dependency
  closure loop, `_sendOne`, `_sendMany`, and the version handling.

JS plain objects are embedded as insertion-ordered association lists with
unique keys; `Set` objects as insertion-ordered duplicate-free lists.
-/

namespace Layr

/-! ## AttributeSelector

A normalized attribute selector is either a boolean or a plain object mapping
attribute names to sub-selectors (JS objects: insertion-ordered, unique keys).
`SelEntries` is the entry list of such an object, declared mutually so that
all operations are structurally recursive (and hence evaluate by `decide`).
`normalize` is folded into the representation: `undefined` lookups are
returned as `false`, exactly as `normalize(undefined)` does in the source.
-/

mutual

inductive AttrSel where
  | bool (b : Bool)
  | node (entries : SelEntries)
deriving DecidableEq

inductive SelEntries where
  | nil
  | cons (name : String) (sel : AttrSel) (rest : SelEntries)
deriving DecidableEq

end

namespace AttrSel

/-- Keys of an entry list, in order. -/
def keys : SelEntries → List String
  | .nil => []
  | .cons n _ rest => n :: keys rest

/-- First-occurrence lookup, `object[name]` on a JS object. -/
def getEntry : SelEntries → String → Option AttrSel
  | .nil, _ => none
  | .cons m t rest, n => if m = n then some t else getEntry rest n

/-- `attributeSelector[name]` followed by `normalize`: a missing key is
`undefined`, which normalizes to `false`. -/
def getSub (a : AttrSel) (n : String) : AttrSel :=
  match a with
  | .bool _ => .bool false
  | .node es => (getEntry es n).getD (.bool false)

/-- `{...object, [name]: v}`: replace the value in place if the key exists,
append otherwise. -/
def setEntry : SelEntries → String → AttrSel → SelEntries
  | .nil, n, v => .cons n v .nil
  | .cons m t rest, n, v => if m = n then .cons m v rest else .cons m t (setEntry rest n v)

/-- `omit(object, name)`: drop the key. -/
def omitEntry : SelEntries → String → SelEntries
  | .nil, _ => .nil
  | .cons m t rest, n => if m = n then omitEntry rest n else .cons m t (omitEntry rest n)

/-- Entry-list part of `AttributeSelector.set`: a `false` sub-selector removes
the key (`omit`), anything else is written with spread semantics. -/
def setEntries (es : SelEntries) (n : String) (v : AttrSel) : SelEntries :=
  match v with
  | .bool false => omitEntry es n
  | _ => setEntry es n v

/-- `AttributeSelector.set` from the source: booleans pass through unchanged,
a `false` sub-selector removes the key, otherwise the key is (re)written. -/
def set (a : AttrSel) (n : String) (v : AttrSel) : AttrSel :=
  match a with
  | .bool _ => a
  | .node es => .node (setEntries es n v)

mutual

/-- `AttributeSelector.includes` from the source. The source's
`attributeSelector === otherAttributeSelector` shortcut is kept for the
primitive (boolean) cases, where `===` is value equality; for two object
operands `===` is reference identity in JS, and the recursive entry walk
computes the same answer on identical objects, so object operands always take
the recursive path here. -/
def includes : AttrSel → AttrSel → Bool
  | .bool x, .bool y => if x = y then true else x
  | .bool x, .node _ => x
  | .node _, .bool y => !y
  | .node aes, .node bes => includesEntries (.node aes) bes

/-- The `for (const [name, otherSubattributeSelector] of Object.entries(...))`
loop of `includes`, returning `false` as soon as one entry fails. -/
def includesEntries : AttrSel → SelEntries → Bool
  | _, .nil => true
  | a, .cons n u rest => includes (getSub a n) u && includesEntries a rest

end

mutual

/-- `AttributeSelector.add` from the source: recursive union. -/
def add : AttrSel → AttrSel → AttrSel
  | .bool true, _ => .bool true
  | .bool false, b => b
  | _, .bool true => .bool true
  | a, .bool false => a
  | .node aes, .node bes => addEntries (.node aes) bes

/-- The entry loop of `add`: the accumulator is the reassigned
`attributeSelector` local of the source. -/
def addEntries : AttrSel → SelEntries → AttrSel
  | acc, .nil => acc
  | acc, .cons n u rest => addEntries (set acc n (add (getSub acc n) u)) rest

end

mutual

/-- `AttributeSelector.remove` from the source: recursive difference. The
checks run in source order: the second operand's boolean cases first, then the
first operand's `true` case throws, then its `false` case. -/
def remove : AttrSel → AttrSel → Except String AttrSel
  | _, .bool true => .ok (.bool false)
  | a, .bool false => .ok a
  | .bool true, .node _ =>
    .error "Cannot remove an 'object' attribute selector from a 'true' attribute selector"
  | .bool false, .node _ => .ok (.bool false)
  | .node aes, .node bes => removeEntries (.node aes) bes

/-- The entry loop of `remove`; a thrown error aborts the whole call. -/
def removeEntries : AttrSel → SelEntries → Except String AttrSel
  | acc, .nil => .ok acc
  | acc, .cons n u rest =>
    match remove (getSub acc n) u with
    | .error e => .error e
    | .ok r => removeEntries (set acc n r) rest

end

mutual

/-- Well-formedness of the embedding: each object level has pairwise distinct
keys, as every JS object does. -/
def wf : AttrSel → Bool
  | .bool _ => true
  | .node es => wfEntries es

def wfEntries : SelEntries → Bool
  | .nil => true
  | .cons n t rest => !(decide (n ∈ keys rest)) && wf t && wfEntries rest

end

mutual

/-- A selector that selects nothing at any depth: `false`, or an object all of
whose sub-selectors select nothing. -/
def isEmptySel : AttrSel → Bool
  | .bool b => !b
  | .node es => isEmptyEntries es

def isEmptyEntries : SelEntries → Bool
  | .nil => true
  | .cons _ t rest => isEmptySel t && isEmptyEntries rest

end

/-! ### Basic lemmas about the entry-list operations -/

/-- Structural induction along an entry list (the sub-selectors are carried as
plain values; none of the list-level lemmas below needs to recurse into them). -/
@[induction_eliminator]
theorem selEntriesInd {P : SelEntries → Prop} (nil : P .nil)
    (cons : ∀ (name : String) (sel : AttrSel) (rest : SelEntries), P rest → P (.cons name sel rest)) :
    ∀ es, P es
  | .nil => nil
  | .cons n t rest => cons n t rest (selEntriesInd nil cons rest)

theorem getEntry_setEntry_self (es : SelEntries) (n : String) (v : AttrSel) :
    getEntry (setEntry es n v) n = some v := by
  induction es with
  | nil => simp [setEntry, getEntry]
  | cons m t rest ih =>
    by_cases h : m = n
    · simp [setEntry, h, getEntry]
    · simp [setEntry, h, getEntry, ih]

theorem getEntry_setEntry_ne (es : SelEntries) (n m : String) (v : AttrSel) (h : m ≠ n) :
    getEntry (setEntry es n v) m = getEntry es m := by
  have hnm : ¬n = m := fun hh => h hh.symm
  induction es with
  | nil => simp [setEntry, getEntry, hnm]
  | cons k t rest ih =>
    by_cases hk : k = n
    · simp [setEntry, hk, getEntry, hnm]
    · simp only [setEntry, if_neg hk, getEntry]
      by_cases hkm : k = m
      · simp [hkm]
      · simp [hkm, ih]

theorem getEntry_omitEntry_self (es : SelEntries) (n : String) :
    getEntry (omitEntry es n) n = none := by
  induction es with
  | nil => simp [omitEntry, getEntry]
  | cons m t rest ih =>
    by_cases h : m = n
    · simp [omitEntry, h, ih]
    · simp [omitEntry, h, getEntry, ih]

theorem getEntry_omitEntry_ne (es : SelEntries) (n m : String) (h : m ≠ n) :
    getEntry (omitEntry es n) m = getEntry es m := by
  have hnm : ¬n = m := fun hh => h hh.symm
  induction es with
  | nil => simp [omitEntry]
  | cons k t rest ih =>
    by_cases hk : k = n
    · simp [omitEntry, hk, getEntry, hnm, ih]
    · simp only [omitEntry, if_neg hk, getEntry]
      by_cases hkm : k = m
      · simp [hkm]
      · simp [hkm, ih]

theorem getSub_setEntries_self (es : SelEntries) (n : String) (v : AttrSel) :
    getSub (.node (setEntries es n v)) n = v := by
  match v with
  | .bool false => simp [setEntries, getSub, getEntry_omitEntry_self]
  | .bool true => simp [setEntries, getSub, getEntry_setEntry_self]
  | .node ves => simp [setEntries, getSub, getEntry_setEntry_self]

theorem getSub_setEntries_ne (es : SelEntries) (n m : String) (v : AttrSel) (h : m ≠ n) :
    getSub (.node (setEntries es n v)) m = getSub (.node es) m := by
  match v with
  | .bool false => simp [setEntries, getSub, getEntry_omitEntry_ne _ _ _ h]
  | .bool true => simp [setEntries, getSub, getEntry_setEntry_ne _ _ _ _ h]
  | .node ves => simp [setEntries, getSub, getEntry_setEntry_ne _ _ _ _ h]

theorem mem_keys_of_getEntry {es : SelEntries} {m : String} {w : AttrSel}
    (h : getEntry es m = some w) : m ∈ keys es := by
  induction es with
  | nil => simp [getEntry] at h
  | cons k t rest ih =>
    by_cases hk : k = m
    · subst hk; simp [keys]
    · simp only [getEntry, if_neg hk] at h
      simp [keys, ih h]

theorem getEntry_eq_none_of_not_mem {es : SelEntries} {m : String}
    (h : m ∉ keys es) : getEntry es m = none := by
  cases hg : getEntry es m with
  | none => rfl
  | some w => exact absurd (mem_keys_of_getEntry hg) h

theorem mem_keys_setEntry {es : SelEntries} {n m : String} {v : AttrSel}
    (h : m ∈ keys (setEntry es n v)) : m = n ∨ m ∈ keys es := by
  induction es with
  | nil =>
    simp only [setEntry, keys, List.mem_cons, List.not_mem_nil, or_false] at h
    exact Or.inl h
  | cons k t rest ih =>
    by_cases hk : k = n
    · simp only [setEntry, if_pos hk, keys, List.mem_cons] at h ⊢
      rcases h with h | h
      · exact Or.inr (Or.inl h)
      · exact Or.inr (Or.inr h)
    · simp only [setEntry, if_neg hk, keys, List.mem_cons] at h ⊢
      rcases h with h | h
      · exact Or.inr (Or.inl h)
      · rcases ih h with h' | h'
        · exact Or.inl h'
        · exact Or.inr (Or.inr h')

theorem mem_keys_omitEntry {es : SelEntries} {n m : String}
    (h : m ∈ keys (omitEntry es n)) : m ∈ keys es := by
  induction es with
  | nil => simpa [omitEntry] using h
  | cons k t rest ih =>
    by_cases hk : k = n
    · simp only [omitEntry, if_pos hk] at h
      simp only [keys, List.mem_cons]
      exact Or.inr (ih h)
    · simp only [omitEntry, if_neg hk, keys, List.mem_cons] at h ⊢
      rcases h with h | h
      · exact Or.inl h
      · exact Or.inr (ih h)

theorem mem_keys_setEntries {es : SelEntries} {n m : String} {v : AttrSel}
    (h : m ∈ keys (setEntries es n v)) : m = n ∨ m ∈ keys es := by
  match v with
  | .bool false => exact Or.inr (mem_keys_omitEntry (by simpa [setEntries] using h))
  | .bool true => exact mem_keys_setEntry (by simpa [setEntries] using h)
  | .node ves => exact mem_keys_setEntry (by simpa [setEntries] using h)

theorem nodup_keys_setEntry {es : SelEntries} {n : String} {v : AttrSel}
    (h : (keys es).Nodup) : (keys (setEntry es n v)).Nodup := by
  induction es with
  | nil => simp [setEntry, keys]
  | cons k t rest ih =>
    simp only [keys, List.nodup_cons] at h
    by_cases hk : k = n
    · simpa [setEntry, hk, keys, List.nodup_cons] using h
    · simp only [setEntry, if_neg hk, keys, List.nodup_cons]
      refine ⟨fun hm => ?_, ih h.2⟩
      rcases mem_keys_setEntry hm with h' | h'
      · exact hk h'
      · exact h.1 h'

theorem nodup_keys_omitEntry {es : SelEntries} {n : String}
    (h : (keys es).Nodup) : (keys (omitEntry es n)).Nodup := by
  induction es with
  | nil => simp [omitEntry, keys]
  | cons k t rest ih =>
    simp only [keys, List.nodup_cons] at h
    by_cases hk : k = n
    · simp only [omitEntry, if_pos hk]
      exact ih h.2
    · simp only [omitEntry, if_neg hk, keys, List.nodup_cons]
      exact ⟨fun hm => h.1 (mem_keys_omitEntry hm), ih h.2⟩

theorem nodup_keys_setEntries {es : SelEntries} {n : String} {v : AttrSel}
    (h : (keys es).Nodup) : (keys (setEntries es n v)).Nodup := by
  match v with
  | .bool false => exact nodup_keys_omitEntry h
  | .bool true => exact nodup_keys_setEntry h
  | .node ves => exact nodup_keys_setEntry h

theorem wfEntries_cons_iff {n : String} {t : AttrSel} {rest : SelEntries} :
    wfEntries (.cons n t rest) = true ↔
      n ∉ keys rest ∧ wf t = true ∧ wfEntries rest = true := by
  simp [wfEntries, Bool.and_eq_true, and_assoc]

theorem nodup_keys_of_wfEntries {es : SelEntries} (h : wfEntries es = true) :
    (keys es).Nodup := by
  induction es with
  | nil => simp [keys]
  | cons n t rest ih =>
    rcases wfEntries_cons_iff.1 h with ⟨h1, _, h3⟩
    simp [keys, List.nodup_cons, h1, ih h3]

theorem wf_of_getEntry {es : SelEntries} {n : String} {u : AttrSel}
    (hwf : wfEntries es = true) (h : getEntry es n = some u) : wf u = true := by
  induction es with
  | nil => simp [getEntry] at h
  | cons k t rest ih =>
    rcases wfEntries_cons_iff.1 hwf with ⟨_, h2, h3⟩
    by_cases hk : k = n
    · simp only [getEntry, if_pos hk, Option.some.injEq] at h
      exact h ▸ h2
    · simp only [getEntry, if_neg hk] at h
      exact ih h3 h

/-! ### Size and well-formedness helpers -/

theorem sizeOf_getEntry_lt {es : SelEntries} {n : String} {u : AttrSel}
    (h : getEntry es n = some u) : sizeOf u < sizeOf es := by
  induction es with
  | nil => simp [getEntry] at h
  | cons k t rest ih =>
    by_cases hk : k = n
    · simp only [getEntry, if_pos hk, Option.some.injEq] at h
      subst h
      simp
      omega
    · simp only [getEntry, if_neg hk] at h
      have := ih h
      simp
      omega

theorem one_le_sizeOf_selEntries (es : SelEntries) : 1 ≤ sizeOf es := by
  cases es with
  | nil => simp
  | cons n t rest => simp; omega

theorem sizeOf_getSub_le (es : SelEntries) (n : String) :
    sizeOf (getSub (.node es) n) ≤ sizeOf (AttrSel.node es) := by
  cases hg : getEntry es n with
  | none =>
    have := one_le_sizeOf_selEntries es
    simp [getSub, hg]
    omega
  | some u =>
    have := sizeOf_getEntry_lt hg
    simp [getSub, hg]
    omega

theorem wf_getSub {a : AttrSel} (n : String) (hwf : wf a = true) :
    wf (getSub a n) = true := by
  cases a with
  | bool b => simp [getSub, wf]
  | node es =>
    cases hg : getEntry es n with
    | none => simp [getSub, hg, wf]
    | some u =>
      simp only [getSub, hg, Option.getD_some]
      exact wf_of_getEntry (by simpa [wf] using hwf) hg

/-! ### The `add` loop and `includes` -/

theorem includes_true_left (x : AttrSel) : includes (.bool true) x = true := by
  cases x with
  | bool y => cases y <;> simp [includes]
  | node es => simp [includes]

theorem includes_false_right (x : AttrSel) : includes x (.bool false) = true := by
  cases x with
  | bool y => cases y <;> simp [includes]
  | node es => simp [includes]

/-- Sufficient condition for the `includes` entry loop to succeed: every entry,
addressed through first-occurrence lookup (which is every entry, as the keys
are unique), is included. -/
theorem includesEntries_true_of (a : AttrSel) (es : SelEntries)
    (hwf : wfEntries es = true)
    (h : ∀ n u, getEntry es n = some u → includes (getSub a n) u = true) :
    includesEntries a es = true := by
  induction es with
  | nil => simp [includesEntries]
  | cons n u rest ih =>
    rcases wfEntries_cons_iff.1 hwf with ⟨h1, _, h3⟩
    have hhead : includes (getSub a n) u = true := h n u (by simp [getEntry])
    have htail : includesEntries a rest = true := by
      refine ih h3 (fun m w hm => h m w ?_)
      have hne : ¬n = m := fun hh => h1 (hh ▸ mem_keys_of_getEntry hm)
      simp [getEntry, hne, hm]
    simp [includesEntries, hhead, htail]

/-- The `add` entry loop keeps the accumulator in object form. -/
theorem addEntries_node (bes : SelEntries) : ∀ es : SelEntries,
    ∃ ces, addEntries (.node es) bes = .node ces := by
  induction bes with
  | nil => exact fun es => ⟨es, by simp [addEntries]⟩
  | cons m u rest ih =>
    intro es
    rcases ih (setEntries es m (add (getSub (.node es) m) u)) with ⟨ces, hc⟩
    exact ⟨ces, by simp [addEntries, set, hc]⟩

/-- What the `add` entry loop does to each key: keys of the second operand are
replaced by the recursive union, other keys are left untouched. Requires the
second operand's keys to be unique (JS object). -/
theorem addEntries_getSub (bes : SelEntries) : ∀ (es : SelEntries) (n : String),
    (keys bes).Nodup →
    getSub (addEntries (.node es) bes) n =
      (match getEntry bes n with
       | none => getSub (.node es) n
       | some w => add (getSub (.node es) n) w) := by
  induction bes with
  | nil => intro es n _; simp [addEntries, getEntry]
  | cons m u rest ih =>
    intro es n hnd
    simp only [keys, List.nodup_cons] at hnd
    simp only [addEntries, set]
    rw [ih _ n hnd.2]
    by_cases hm : m = n
    · subst hm
      have hrest : getEntry rest m = none :=
        getEntry_eq_none_of_not_mem hnd.1
      simp [hrest, getEntry, getSub_setEntries_self]
    · have hne : n ≠ m := fun hh => hm hh.symm
      simp [getEntry, hm, getSub_setEntries_ne es m n _ hne]

theorem includes_refl_aux : ∀ (k : Nat) (a : AttrSel), sizeOf a ≤ k → wf a = true →
    includes a a = true := by
  intro k
  induction k with
  | zero =>
    intro a h _
    cases a <;> simp at h
  | succ k ih =>
    intro a h hwf
    cases a with
    | bool b => simp [includes]
    | node es =>
      simp only [includes]
      refine includesEntries_true_of _ es (by simpa [wf] using hwf) (fun n u hg => ?_)
      have hu : getSub (.node es) n = u := by simp [getSub, hg]
      rw [hu]
      have hlt := sizeOf_getEntry_lt hg
      have hsz : sizeOf u ≤ k := by simp at h; omega
      exact ih u hsz (wf_of_getEntry (by simpa [wf] using hwf) hg)

/-- Reflexivity of `includes` on well-formed selectors. In the source this is
immediate for identical references via the `===` shortcut; the recursive walk
computes the same answer for structurally equal objects. -/
theorem includes_refl (a : AttrSel) (hwf : wf a = true) : includes a a = true :=
  includes_refl_aux (sizeOf a) a le_rfl hwf

theorem add_includes_aux : ∀ (k : Nat) (a b : AttrSel), sizeOf a + sizeOf b ≤ k →
    wf a = true → wf b = true →
    includes (add a b) a = true ∧ includes (add a b) b = true := by
  intro k
  induction k with
  | zero =>
    intro a b h _ _
    cases a <;> simp at h
  | succ k ih =>
    intro a b h hwfa hwfb
    match a, b with
    | .bool true, b =>
      have ha : add (.bool true) b = .bool true := by simp [add]
      rw [ha]
      exact ⟨includes_true_left _, includes_true_left b⟩
    | .bool false, b =>
      have ha : add (.bool false) b = b := by simp [add]
      rw [ha]
      exact ⟨includes_false_right b, includes_refl b hwfb⟩
    | .node aes, .bool true =>
      have ha : add (.node aes) (.bool true) = .bool true := by simp [add]
      rw [ha]
      exact ⟨includes_true_left _, includes_true_left _⟩
    | .node aes, .bool false =>
      have ha : add (.node aes) (.bool false) = .node aes := by simp [add]
      rw [ha]
      exact ⟨includes_refl _ hwfa, includes_false_right _⟩
    | .node aes, .node bes =>
      have hwfaes : wfEntries aes = true := by simpa [wf] using hwfa
      have hwfbes : wfEntries bes = true := by simpa [wf] using hwfb
      have hnd : (keys bes).Nodup := nodup_keys_of_wfEntries hwfbes
      have hadd : add (.node aes) (.node bes) = addEntries (.node aes) bes := by
        simp [add]
      rcases addEntries_node bes aes with ⟨ces, hC⟩
      have hsz : sizeOf aes + sizeOf bes + 2 ≤ k + 1 := by simp at h; omega
      constructor
      · rw [hadd, hC]
        simp only [includes]
        refine includesEntries_true_of _ aes hwfaes (fun n u hg => ?_)
        have hsub : getSub (.node ces) n =
            (match getEntry bes n with
             | none => getSub (.node aes) n
             | some w => add (getSub (.node aes) n) w) := by
          rw [← hC]
          exact addEntries_getSub bes aes n hnd
        have hu : getSub (.node aes) n = u := by simp [getSub, hg]
        cases hb : getEntry bes n with
        | none =>
          rw [hsub]
          simp only [hb]
          rw [hu]
          exact includes_refl u (wf_of_getEntry hwfaes hg)
        | some w =>
          rw [hsub]
          simp only [hb]
          rw [hu]
          have h1 := sizeOf_getEntry_lt hg
          have h2 := sizeOf_getEntry_lt hb
          exact (ih u w (by omega) (wf_of_getEntry hwfaes hg)
            (wf_of_getEntry hwfbes hb)).1
      · rw [hadd, hC]
        simp only [includes]
        refine includesEntries_true_of _ bes hwfbes (fun n w hg => ?_)
        have hsub : getSub (.node ces) n =
            (match getEntry bes n with
             | none => getSub (.node aes) n
             | some w => add (getSub (.node aes) n) w) := by
          rw [← hC]
          exact addEntries_getSub bes aes n hnd
        rw [hsub]
        simp only [hg]
        have h1 := sizeOf_getSub_le aes n
        have h2 := sizeOf_getEntry_lt hg
        have h3 : sizeOf (AttrSel.node aes) = 1 + sizeOf aes := by simp
        exact (ih (getSub (.node aes) n) w (by omega) (wf_getSub n hwfa)
          (wf_of_getEntry hwfbes hg)).2

/-! ### The `remove` loop -/

/-- An entry list is empty-as-a-selector when every sub-selector reachable via
lookup is; requires unique keys so that lookup reaches every entry. -/
theorem isEmptyEntries_of (res : SelEntries)
    (hnd : (keys res).Nodup)
    (h : ∀ n, n ∈ keys res → isEmptySel (getSub (.node res) n) = true) :
    isEmptyEntries res = true := by
  induction res with
  | nil => simp [isEmptyEntries]
  | cons n t rest ih =>
    simp only [keys, List.nodup_cons] at hnd
    have hhead : isEmptySel t = true := by
      have := h n (by simp [keys])
      simpa [getSub, getEntry] using this
    have htail : isEmptyEntries rest = true := by
      refine ih hnd.2 (fun m hm => ?_)
      have hne : ¬n = m := fun hh => hnd.1 (hh ▸ hm)
      have := h m (by simp [keys, hm])
      simpa [getSub, getEntry, hne] using this
    simp [isEmptyEntries, hhead, htail]

/-- What the `remove` entry loop does when subtracting an object selector from
itself entry by entry: it succeeds, every processed key ends up selecting
nothing, other keys are untouched, and no new keys appear. -/
theorem removeEntries_self_aux : ∀ (es : SelEntries) (acc : SelEntries),
    (keys es).Nodup →
    (∀ n u, getEntry es n = some u → getSub (.node acc) n = u) →
    (∀ n u, getEntry es n = some u → ∃ r, remove u u = .ok r ∧ isEmptySel r = true) →
    ∃ res : SelEntries, removeEntries (.node acc) es = .ok (.node res) ∧
      (∀ m, m ∈ keys res → m ∈ keys acc ∨ m ∈ keys es) ∧
      ((keys acc).Nodup → (keys res).Nodup) ∧
      (∀ n, n ∈ keys es → isEmptySel (getSub (.node res) n) = true) ∧
      (∀ n, n ∉ keys es → getSub (.node res) n = getSub (.node acc) n) := by
  intro es
  induction es with
  | nil =>
    intro acc _ _ _
    exact ⟨acc, by simp [removeEntries], fun m hm => Or.inl hm, fun h => h,
      fun n hn => by simp [keys] at hn, fun n _ => rfl⟩
  | cons n u rest ih =>
    intro acc hnd hget hrem
    simp only [keys, List.nodup_cons] at hnd
    have hu : getSub (.node acc) n = u := hget n u (by simp [getEntry])
    rcases hrem n u (by simp [getEntry]) with ⟨r, hr, hre⟩
    have hstep : removeEntries (.node acc) (.cons n u rest) =
        removeEntries (.node (setEntries acc n r)) rest := by
      simp [removeEntries, hu, hr, set]
    have hget' : ∀ m w, getEntry rest m = some w →
        getSub (.node (setEntries acc n r)) m = w := by
      intro m w hm
      have hmem := mem_keys_of_getEntry hm
      have hne : m ≠ n := fun hh => hnd.1 (hh ▸ hmem)
      rw [getSub_setEntries_ne _ _ _ _ hne]
      refine hget m w ?_
      have hnm : ¬n = m := fun hh => hne hh.symm
      simp [getEntry, hnm, hm]
    have hrem' : ∀ m w, getEntry rest m = some w →
        ∃ r', remove w w = .ok r' ∧ isEmptySel r' = true := by
      intro m w hm
      refine hrem m w ?_
      have hmem := mem_keys_of_getEntry hm
      have hnm : ¬n = m := fun hh => hnd.1 (hh ▸ hmem)
      simp [getEntry, hnm, hm]
    rcases ih (setEntries acc n r) hnd.2 hget' hrem' with
      ⟨res, hres, hsub, hnodup, hempty, hout⟩
    refine ⟨res, by rw [hstep, hres], ?_, ?_, ?_, ?_⟩
    · intro m hm
      rcases hsub m hm with hm' | hm'
      · rcases mem_keys_setEntries hm' with hm'' | hm''
        · exact Or.inr (by simp [keys, hm''])
        · exact Or.inl hm''
      · exact Or.inr (by simp [keys, hm'])
    · intro hacc
      exact hnodup (nodup_keys_setEntries hacc)
    · intro m hm
      simp only [keys, List.mem_cons] at hm
      rcases hm with hm | hm
      · subst hm
        rw [hout m hnd.1, getSub_setEntries_self]
        exact hre
      · exact hempty m hm
    · intro m hm
      simp only [keys, List.mem_cons] at hm
      push_neg at hm
      rw [hout m hm.2, getSub_setEntries_ne _ _ _ _ hm.1]

theorem remove_self_aux : ∀ (k : Nat) (a : AttrSel), sizeOf a ≤ k → wf a = true →
    ∃ r, remove a a = .ok r ∧ isEmptySel r = true ∧ (∀ b, a = .bool b → r = .bool false) := by
  intro k
  induction k with
  | zero =>
    intro a h _
    cases a <;> simp at h
  | succ k ih =>
    intro a h hwf
    match a with
    | .bool true =>
      exact ⟨.bool false, by simp [remove], by simp [isEmptySel], fun _ _ => rfl⟩
    | .bool false =>
      exact ⟨.bool false, by simp [remove], by simp [isEmptySel], fun _ _ => rfl⟩
    | .node es =>
      have hwfes : wfEntries es = true := by simpa [wf] using hwf
      have hnd : (keys es).Nodup := nodup_keys_of_wfEntries hwfes
      have hrem : ∀ n u, getEntry es n = some u →
          ∃ r, remove u u = .ok r ∧ isEmptySel r = true := by
        intro n u hg
        have hsz : sizeOf u ≤ k := by
          have := sizeOf_getEntry_lt hg
          simp at h
          omega
        rcases ih u hsz (wf_of_getEntry hwfes hg) with ⟨r, h1, h2, _⟩
        exact ⟨r, h1, h2⟩
      rcases removeEntries_self_aux es es hnd
          (fun n u hg => by simp [getSub, hg]) hrem with
        ⟨res, hres, hsub, hnodup, hempty, _⟩
      refine ⟨.node res, ?_, ?_, ?_⟩
      · rw [show remove (.node es) (.node es) = removeEntries (.node es) es by
          simp [remove]]
        exact hres
      · simp only [isEmptySel]
        refine isEmptyEntries_of res (hnodup hnd) (fun m hm => ?_)
        rcases hsub m hm with hm' | hm' <;> exact hempty m hm'
      · intro b hb
        simp at hb

/-! ### Claims about `AttributeSelector.remove` and `AttributeSelector.add` -/

/-- C4 counterexample. The claim states that `remove(A, A)` yields `false` for
every selector `A` other than `true`, and fails with an error for `A = true`.
On the code: `remove(true, true)` returns `false` (the second operand's `true`
case is checked before the first operand's `true` case throws), and
`remove({a: true}, {a: true})` returns the empty object selector `{}`, which is
not the value `false`. -/
theorem claim4_counterexample :
    remove (.bool true) (.bool true) = .ok (.bool false) ∧
    remove (.node (.cons "a" (.bool true) .nil)) (.node (.cons "a" (.bool true) .nil)) =
      .ok (.node .nil) ∧
    AttrSel.node .nil ≠ .bool false :=
  ⟨rfl, rfl, by decide⟩

/-- C4 (amended): for every well-formed selector `A`, `remove(A, A)` never
fails — including `A = true`, which returns `false` rather than throwing — and
returns a selector that selects nothing: the value `false` whenever `A` is a
boolean, and otherwise an object selector all of whose sub-selectors
recursively select nothing (not necessarily the value `false` itself). -/
theorem claim4_remove_self_selects_nothing (A : AttrSel) (h : wf A = true) :
    ∃ r, remove A A = .ok r ∧ isEmptySel r = true ∧ (∀ b, A = .bool b → r = .bool false) :=
  remove_self_aux (sizeOf A) A le_rfl h

/-- Witness for C4's amended theorem at `A = {a: true, b: {}}`. -/
theorem claim4_witness :
    wf (AttrSel.node (.cons "a" (.bool true) (.cons "b" (.node .nil) .nil))) = true ∧
    ∃ r, remove (AttrSel.node (.cons "a" (.bool true) (.cons "b" (.node .nil) .nil)))
          (AttrSel.node (.cons "a" (.bool true) (.cons "b" (.node .nil) .nil))) = .ok r ∧
        isEmptySel r = true ∧
        (∀ b, AttrSel.node (.cons "a" (.bool true) (.cons "b" (.node .nil) .nil)) = .bool b →
          r = .bool false) :=
  ⟨by decide, claim4_remove_self_selects_nothing _ (by decide)⟩

/-- C7: for all well-formed selectors `A`, `B`, the union `add(A, B)` includes
both of its operands: `includes(add(A, B), A)` and `includes(add(A, B), B)`
are both `true`. -/
theorem claim7_add_includes_operands (A B : AttrSel)
    (hA : wf A = true) (hB : wf B = true) :
    includes (add A B) A = true ∧ includes (add A B) B = true :=
  add_includes_aux (sizeOf A + sizeOf B) A B le_rfl hA hB

/-- Witness for C7 at `A = {a: true, c: {d: true}}`, `B = {b: true, c: {e: true}}`. -/
theorem claim7_witness :
    wf (AttrSel.node (.cons "a" (.bool true)
      (.cons "c" (.node (.cons "d" (.bool true) .nil)) .nil))) = true ∧
    wf (AttrSel.node (.cons "b" (.bool true)
      (.cons "c" (.node (.cons "e" (.bool true) .nil)) .nil))) = true ∧
    (includes
        (add (AttrSel.node (.cons "a" (.bool true)
          (.cons "c" (.node (.cons "d" (.bool true) .nil)) .nil)))
          (AttrSel.node (.cons "b" (.bool true)
            (.cons "c" (.node (.cons "e" (.bool true) .nil)) .nil))))
        (AttrSel.node (.cons "a" (.bool true)
          (.cons "c" (.node (.cons "d" (.bool true) .nil)) .nil))) = true ∧
      includes
        (add (AttrSel.node (.cons "a" (.bool true)
          (.cons "c" (.node (.cons "d" (.bool true) .nil)) .nil)))
          (AttrSel.node (.cons "b" (.bool true)
            (.cons "c" (.node (.cons "e" (.bool true) .nil)) .nil))))
        (AttrSel.node (.cons "b" (.bool true)
          (.cons "c" (.node (.cons "e" (.bool true) .nil)) .nil))) = true) :=
  ⟨by decide, by decide, claim7_add_includes_operands _ _ (by decide) (by decide)⟩

end AttrSel

/-! ## Component graph serializer / deserializer (value model)

The serializer and deserializer implementations are not among the provided
sources — only their test file (`Serialization` tests) and their callers in
the component client are.  The definitions below are therefore modelled from
the specification (§4.2 Serializer, §4.3 Deserializer, §3 wire shapes),
matching the behaviour exercised by the test file: primitives and arrays pass
through structurally, `undefined` becomes a sentinel, a component instance
serializes to `{__component, __new?, ...setAttributes}` and requires its class
to be a known component, error sentinels rethrow on deserialization.

Values are typed trees: `CVal` is an in-memory value (a component instance
carries its class name, its `isNew` flag and its currently-set attributes;
unset attributes are simply absent), `Wire` is the transport-safe form.
-/

/-- JSON primitive values: pass through serialization unchanged. -/
inductive Prim where
  | str (s : String)
  | num (n : Int)
  | bool (b : Bool)
  | null
deriving DecidableEq

mutual

inductive CVal where
  | prim (p : Prim)
  | undef
  | arr (elems : CValList)
  | obj (fields : CFields)
  | inst (className : String) (isNew : Bool) (attrs : CFields)
deriving DecidableEq

inductive CValList where
  | nil
  | cons (v : CVal) (rest : CValList)
deriving DecidableEq

inductive CFields where
  | nil
  | cons (name : String) (v : CVal) (rest : CFields)
deriving DecidableEq

end

mutual

inductive Wire where
  | prim (p : Prim)
  | undefS
  | errS (msg : String)
  | warr (elems : WireList)
  | wobj (fields : WFields)
  | winst (className : String) (isNew : Bool) (attrs : WFields)
deriving DecidableEq

inductive WireList where
  | nil
  | cons (w : Wire) (rest : WireList)
deriving DecidableEq

inductive WFields where
  | nil
  | cons (name : String) (w : Wire) (rest : WFields)
deriving DecidableEq

end

mutual

/-- Modelled from the spec: the `serialize(value, {knownComponents})` core
(§4.2; implementation not under the provided sources). Primitives and `null`
pass through; `undefined` becomes the `{__undefined: true}` sentinel; arrays
map element-wise; plain objects recurse per key; a component instance emits
`{__component: name, __new?: true, ...attrs}` with each set attribute
serialized, and fails with `UnknownComponent` when its class is not a known
component. -/
def serializeVal : CVal → List String → Except String Wire
  | .prim p, _ => .ok (.prim p)
  | .undef, _ => .ok .undefS
  | .arr es, known =>
    match serializeList es known with
    | .error e => .error e
    | .ok ws => .ok (.warr ws)
  | .obj fs, known =>
    match serializeFields fs known with
    | .error e => .error e
    | .ok ws => .ok (.wobj ws)
  | .inst name isNew attrs, known =>
    if name ∈ known then
      match serializeFields attrs known with
      | .error e => .error e
      | .ok ws => .ok (.winst name isNew ws)
    else .error ("The '" ++ name ++ "' component is unknown")

def serializeList : CValList → List String → Except String WireList
  | .nil, _ => .ok .nil
  | .cons v rest, known =>
    match serializeVal v known with
    | .error e => .error e
    | .ok w =>
      match serializeList rest known with
      | .error e => .error e
      | .ok ws => .ok (.cons w ws)

def serializeFields : CFields → List String → Except String WFields
  | .nil, _ => .ok .nil
  | .cons n v rest, known =>
    match serializeVal v known with
    | .error e => .error e
    | .ok w =>
      match serializeFields rest known with
      | .error e => .error e
      | .ok ws => .ok (.cons n w ws)

end

mutual

/-- Modelled from the spec: the `deserialize(value, {rootComponent})` core
(§4.3; implementation not under the provided sources). Sentinels decode first
(`__undefined`; `__error` constructs an error that the default error handler
rethrows); `{__component: name, __new?, ...attrs}` resolves `name` against the
root component's class registry — failing with `UnknownComponent` when absent —
instantiating a fresh instance when `__new` and otherwise a shell instance
(the identity map is modelled as empty), and assigns only the attributes
present in the payload; plain objects and arrays recurse element-wise. -/
def deserializeVal : Wire → List String → Except String CVal
  | .prim p, _ => .ok (.prim p)
  | .undefS, _ => .ok .undef
  | .errS msg, _ => .error msg
  | .warr ws, reg =>
    match deserializeList ws reg with
    | .error e => .error e
    | .ok es => .ok (.arr es)
  | .wobj ws, reg =>
    match deserializeWFields ws reg with
    | .error e => .error e
    | .ok fs => .ok (.obj fs)
  | .winst name isNew ws, reg =>
    if name ∈ reg then
      match deserializeWFields ws reg with
      | .error e => .error e
      | .ok fs => .ok (.inst name isNew fs)
    else .error ("The '" ++ name ++ "' component is unknown")

def deserializeList : WireList → List String → Except String CValList
  | .nil, _ => .ok .nil
  | .cons w rest, reg =>
    match deserializeVal w reg with
    | .error e => .error e
    | .ok v =>
      match deserializeList rest reg with
      | .error e => .error e
      | .ok vs => .ok (.cons v vs)

def deserializeWFields : WFields → List String → Except String CFields
  | .nil, _ => .ok .nil
  | .cons n w rest, reg =>
    match deserializeVal w reg with
    | .error e => .error e
    | .ok v =>
      match deserializeWFields rest reg with
      | .error e => .error e
      | .ok vs => .ok (.cons n v vs)

end

/-- Round trip: whenever serialization succeeds against a set of known
components contained in the deserializer's registry, deserialization
reconstructs the exact original value (mutual statement over values, element
lists and field lists, by strong induction on size). -/
theorem roundtrip_aux : ∀ (k : Nat),
    (∀ (v : CVal) (known reg : List String) (w : Wire), sizeOf v ≤ k → known ⊆ reg →
      serializeVal v known = .ok w → deserializeVal w reg = .ok v) ∧
    (∀ (l : CValList) (known reg : List String) (ws : WireList), sizeOf l ≤ k → known ⊆ reg →
      serializeList l known = .ok ws → deserializeList ws reg = .ok l) ∧
    (∀ (f : CFields) (known reg : List String) (ws : WFields), sizeOf f ≤ k → known ⊆ reg →
      serializeFields f known = .ok ws → deserializeWFields ws reg = .ok f) := by
  intro k
  induction k with
  | zero =>
    refine ⟨?_, ?_, ?_⟩
    · intro v known reg w hsz hsub hser
      cases v <;> simp at hsz
    · intro l known reg ws hsz hsub hser
      cases l <;> simp at hsz
    · intro f known reg ws hsz hsub hser
      cases f <;> simp at hsz
  | succ k ih =>
    obtain ⟨ihv, ihl, ihf⟩ := ih
    refine ⟨?_, ?_, ?_⟩
    · intro v known reg w hsz hsub hser
      match v with
      | .prim p =>
        simp only [serializeVal, Except.ok.injEq] at hser
        subst hser
        simp [deserializeVal]
      | .undef =>
        simp only [serializeVal, Except.ok.injEq] at hser
        subst hser
        simp [deserializeVal]
      | .arr es =>
        simp only [serializeVal] at hser
        cases hl : serializeList es known with
        | error e => rw [hl] at hser; simp at hser
        | ok ws =>
          rw [hl] at hser
          simp only [Except.ok.injEq] at hser
          subst hser
          have hd := ihl es known reg ws (by simp at hsz; omega) hsub hl
          simp [deserializeVal, hd]
      | .obj fs =>
        simp only [serializeVal] at hser
        cases hl : serializeFields fs known with
        | error e => rw [hl] at hser; simp at hser
        | ok ws =>
          rw [hl] at hser
          simp only [Except.ok.injEq] at hser
          subst hser
          have hd := ihf fs known reg ws (by simp at hsz; omega) hsub hl
          simp [deserializeVal, hd]
      | .inst name isNew attrs =>
        by_cases hmem : name ∈ known
        · simp only [serializeVal, if_pos hmem] at hser
          cases hl : serializeFields attrs known with
          | error e => rw [hl] at hser; simp at hser
          | ok ws =>
            rw [hl] at hser
            simp only [Except.ok.injEq] at hser
            subst hser
            have hd := ihf attrs known reg ws (by simp at hsz; omega) hsub hl
            simp [deserializeVal, if_pos (hsub hmem), hd]
        · simp [serializeVal, if_neg hmem] at hser
    · intro l known reg ws hsz hsub hser
      match l with
      | .nil =>
        simp only [serializeList, Except.ok.injEq] at hser
        subst hser
        simp [deserializeList]
      | .cons v rest =>
        simp only [serializeList] at hser
        cases hv : serializeVal v known with
        | error e => rw [hv] at hser; simp at hser
        | ok w =>
          rw [hv] at hser
          cases hr : serializeList rest known with
          | error e => rw [hr] at hser; simp at hser
          | ok wrest =>
            rw [hr] at hser
            simp only [Except.ok.injEq] at hser
            subst hser
            have hdv := ihv v known reg w (by simp at hsz; omega) hsub hv
            have hdr := ihl rest known reg wrest (by simp at hsz; omega) hsub hr
            simp [deserializeList, hdv, hdr]
    · intro f known reg ws hsz hsub hser
      match f with
      | .nil =>
        simp only [serializeFields, Except.ok.injEq] at hser
        subst hser
        simp [deserializeWFields]
      | .cons n v rest =>
        simp only [serializeFields] at hser
        cases hv : serializeVal v known with
        | error e => rw [hv] at hser; simp at hser
        | ok w =>
          rw [hv] at hser
          cases hr : serializeFields rest known with
          | error e => rw [hr] at hser; simp at hser
          | ok wrest =>
            rw [hr] at hser
            simp only [Except.ok.injEq] at hser
            subst hser
            have hdv := ihv v known reg w (by simp at hsz; omega) hsub hv
            have hdr := ihf rest known reg wrest (by simp at hsz; omega) hsub hr
            simp [deserializeWFields, hdv, hdr]

/-- C5 counterexample. The claim quantifies over every component instance `x`
whose own class `X` is listed in `knownComponents`; but for an instance whose
attributes reference a second component class (here a `Movie` with a
`Director` attribute, exactly the shape used in the serialization test file),
`serialize(x, {knownComponents: [X]})` fails with `UnknownComponent`, so no
round trip happens at all. -/
theorem claim5_counterexample :
    serializeVal
      (.inst "Movie" false
        (.cons "title" (.prim (.str "Inception"))
          (.cons "director"
            (.inst "Director" true (.cons "name" (.prim (.str "Christopher Nolan")) .nil))
            .nil)))
      ["Movie"] = .error "The 'Director' component is unknown" := rfl

/-- C5 (amended): for every component instance `x` whose serialization against
`knownComponents: [X]` succeeds — equivalently, every component class
transitively referenced by `x`'s set attributes is `X` itself — deserializing
the result against `rootComponent: X` reconstructs a component instance equal
to `x` in class, `isNew` flag and all observable (set) attributes. -/
theorem claim5_serialize_roundtrip (className : String) (isNew : Bool) (attrs : CFields)
    (X : String) (w : Wire)
    (h : serializeVal (.inst className isNew attrs) [X] = .ok w) :
    deserializeVal w [X] = .ok (.inst className isNew attrs) :=
  (roundtrip_aux (sizeOf (CVal.inst className isNew attrs))).1 _ [X] [X] w le_rfl
    (List.Subset.refl _) h

/-- Witness for C5's amended theorem: a new `Movie` with a set `title`
round-trips to itself. -/
theorem claim5_witness :
    serializeVal (.inst "Movie" true (.cons "title" (.prim (.str "Inception")) .nil)) ["Movie"]
      = .ok (.winst "Movie" true (.cons "title" (.prim (.str "Inception")) .nil)) ∧
    deserializeVal (.winst "Movie" true (.cons "title" (.prim (.str "Inception")) .nil)) ["Movie"]
      = .ok (.inst "Movie" true (.cons "title" (.prim (.str "Inception")) .nil)) :=
  ⟨rfl, claim5_serialize_roundtrip "Movie" true _ "Movie" _ rfl⟩

/-! ## Component client: `_serializeQuery`, `_sendOne`, `_sendMany`

The `ComponentClient` source is among the provided files; the definitions in
this section mirror it.  The serializer proper and the `Microbatcher` package
are external to the provided sources and are modelled from the spec where
noted.  Queries are modelled opaquely: a plain query carries an opaque payload
id together with the list of component-class references the serializer would
discover in it (in traversal order, possibly with repetitions); `'||'` batch
queries wrap the plain sub-queries in order.  `serialize` is modelled as the
identity on this structure (the encoding is injective and irrelevant to the
claims), with the referenced classes collected into the dependency set. -/

/-- A query envelope as handed to `send` / built by `_sendMany`. -/
inductive CQuery where
  | plain (id : Nat) (refs : List String)
  | batch (qs : List (Nat × List String))
deriving DecidableEq

/-- JS `Set.add`: append if absent (insertion-ordered, duplicate-free). -/
def insertName (s : List String) (n : String) : List String :=
  if n ∈ s then s else s ++ [n]

/-- Modelled from the spec: `serialize(query, {componentDependencies, ...})`
registers every component class discovered during traversal into the
`componentDependencies` set (§4.2 step 6); for a `'||'` batch the sub-queries
are traversed in order. -/
def collectRefs : CQuery → List String
  | .plain _ refs => refs.foldl insertName []
  | .batch qs => qs.foldl (fun acc q => q.2.foldl insertName acc) []

/-- The environment a dependency-closure run sees: the finite universe of
component classes, each class's own direct dependencies (the classes
registered while serializing its definition), and its serialized form —
`none` when `ignoreEmptyComponents` makes it serialize to `undefined`. -/
structure SerEnv where
  classes : List String
  deps : String → List String
  entry : String → Option String

/-- The recursive `serializeComponentDependencies` closure loop of
`_serializeQuery` (from the source): serialize every not-yet-handled
dependency of the current set — collecting the additional dependencies this
discovers into a fresh set — push its serialized form unless `undefined`, mark
it handled, and recurse on the additional set until it is empty.  The source
recursion terminates because every round either handles a new class or
produces an empty additional set; the fuel argument bounds the number of
rounds and is instantiated with more rounds than classes in the universe. -/
def serializeDepsLoop (env : SerEnv) :
    Nat → List String → List String → List String → List String
  | 0, _, out, _ => out
  | fuel + 1, handled, out, current =>
    if current = [] then out
    else
      let step := current.foldl
        (fun (st : List String × List String × List String) dep =>
          if dep ∈ st.1 then st
          else
            let additional := (env.deps dep).foldl insertName st.2.2
            let out' := match env.entry dep with
              | some e => st.2.1 ++ [e]
              | none => st.2.1
            (st.1 ++ [dep], out', additional))
        (handled, out, [])
      serializeDepsLoop env fuel step.1 step.2.1 step.2.2

/-- `_serializeQuery` (from the source): serialize the query collecting its
direct component dependencies, then run the closure loop over them with an
empty handled-set; the serialized query is the query itself in this model, and
the dependency list is returned (`[]` standing for the source's `undefined`
when nothing was pushed). -/
def serializeQueryModel (env : SerEnv) (q : CQuery) : CQuery × List String :=
  (q, serializeDepsLoop env (env.classes.length + 1) [] [] (collectRefs q))

/-! ### The send path

Serialized result values are modelled two levels deep, matching the batch
protocol: a response's `result` is either a single opaque slot or the `'||'`
array of per-operation slots; a slot is an opaque application value, the
`{__undefined: true}` sentinel, or the `{__error: ...}` sentinel. -/

/-- One serialized result slot. -/
inductive SSlot where
  | val (n : Nat)
  | undefS
  | errS (msg : String)
deriving DecidableEq

/-- A response's serialized `result` field. -/
inductive SVal where
  | slot (s : SSlot)
  | arr (slots : List SSlot)
deriving DecidableEq

/-- Modelled from the spec: deserializing one result slot with the client's
error handler, which rethrows — an `__error` sentinel rejects with its error;
other values are opaque and deserialize to themselves. -/
def deserializeSlot : SSlot → Except String SSlot
  | .errS msg => .error msg
  | .val n => .ok (.val n)
  | .undefS => .ok .undefS

/-- Modelled from the spec: deserializing a whole serialized result — arrays
recurse element-wise, so one error sentinel anywhere rejects the whole value
(this is the non-batched path; `_sendMany` instead deserializes slot by
slot). -/
def deserializeSVal : SVal → Except String SVal
  | .slot s =>
    match deserializeSlot s with
    | .error e => .error e
    | .ok v => .ok (.slot v)
  | .arr slots =>
    match slots.mapM deserializeSlot with
    | .error e => .error e
    | .ok vs => .ok (.arr vs)

/-- `(serializedResponse.result as unknown[])[index]`: indexing out of range —
or into a non-array — yields `undefined`. -/
def resultAt : SVal → Nat → SSlot
  | .arr slots, i => slots.getD i .undefS
  | .slot _, _ => .undefS

/-- The request payload handed to `componentServer.receive`: the serialized
query, the serialized component dependencies (the key is absent when no
dependency was pushed), and the client's configured version. -/
structure Request where
  query : CQuery
  components : Option (List String)
  version : Option Nat
deriving DecidableEq

/-- The `{result, components}` response of `receive`. -/
structure Response where
  result : SVal
  components : Option (List String)
deriving DecidableEq

/-- The transport collaborator: `receive`, which may fail. -/
def Transport : Type := Request → Except String Response

/-- Client state relevant to the send path: the serialization environment and
the configured protocol version. -/
structure ClientModel where
  env : SerEnv
  version : Option Nat

/-- An enqueued send operation: the (plain) query built by a method proxy and
the `rootComponent` option. -/
structure SOp where
  queryId : Nat
  queryRefs : List String
  rootComponent : Option String
deriving DecidableEq

/-- Builds the `receive` payload as `_sendOne`/`_sendMany` do: the
`components` key is only present when the dependency list is non-empty (in
the source, `serializedComponents` remains `undefined` unless an entry was
pushed, and the conditional spread omits the key). -/
def mkRequest (c : ClientModel) (sq : CQuery) (comps : List String) : Request :=
  { query := sq
    components := if comps = [] then none else some comps
    version := c.version }

/-- An execution trace of the send path: the `receive` calls made, the
`deserialize` calls on response components (payload and the `rootComponent`
they were deserialized against), the `deserialize` calls on serialized
results, and the value(s) delivered to the caller(s). -/
structure OneTrace where
  requests : List Request
  compDeser : List (Option (List String) × Option String)
  resultDeser : List (SVal × Option String)
  outcome : Except String SVal

structure ManyTrace where
  requests : List Request
  compDeser : List (Option (List String) × Option String)
  resultDeser : List (SVal × Option String)
  outcomes : List (Except String SVal)

/-- `_sendOne` (from the source): serialize the query, call `receive` once
with `{query, components?, version}`, then deserialize the response's
components (against the `rootComponent` option) and then its result; a
transport failure rejects the call.  Component payloads in this model are
serialized classes and contain no error sentinels, so their deserialization
succeeds (the calls are recorded in the trace). -/
def sendOneModel (c : ClientModel) (t : Transport) (q : CQuery) (rc : Option String) :
    OneTrace :=
  let sq := (serializeQueryModel c.env q).1
  let comps := (serializeQueryModel c.env q).2
  let req := mkRequest c sq comps
  match t req with
  | .error e => ⟨[req], [], [], .error e⟩
  | .ok resp =>
    ⟨[req], [(resp.components, rc)], [(resp.result, rc)], deserializeSVal resp.result⟩

/-- The indexed walk of `_sendMany`'s distribution loop
(`for (let index = 0; index < operations.length; index++)`). -/
def mapWithIndex {α : Type} (f : Nat → SOp → α) : Nat → List SOp → List α
  | _, [] => []
  | i, o :: rest => f i o :: mapWithIndex f (i + 1) rest

/-- `_sendMany` (from the source): a batch of exactly one delegates to
`_sendOne`; otherwise the queries are wrapped in a `'||'` envelope, serialized
and sent in one `receive` call; on success the shared components are
deserialized once against the first operation's `rootComponent`, then each
operation's result slot is deserialized against its own `rootComponent` and
resolved or rejected individually; a transport failure rejects every
operation with the same error (modelled from the spec: the microbatcher
rejects all pending operations when the batch function itself fails).  The
source would crash on an empty batch (`operations[0]` is `undefined`); the
microbatcher never flushes an empty batch, and the model routes `[]` through
the general branch. -/
def sendManyModel (c : ClientModel) (t : Transport) (ops : List SOp) : ManyTrace :=
  match ops with
  | [op] =>
    let tr := sendOneModel c t (.plain op.queryId op.queryRefs) op.rootComponent
    ⟨tr.requests, tr.compDeser, tr.resultDeser, [tr.outcome]⟩
  | _ =>
    let queries : CQuery := .batch (ops.map (fun o => (o.queryId, o.queryRefs)))
    let sq := (serializeQueryModel c.env queries).1
    let comps := (serializeQueryModel c.env queries).2
    let req := mkRequest c sq comps
    match t req with
    | .error e => ⟨[req], [], [], ops.map (fun _ => .error e)⟩
    | .ok resp =>
      let firstRC := match ops with
        | op :: _ => op.rootComponent
        | [] => none
      ⟨[req], [(resp.components, firstRC)],
        mapWithIndex (fun i o => (SVal.slot (resultAt resp.result i), o.rootComponent)) 0 ops,
        mapWithIndex (fun i _ => (deserializeSlot (resultAt resp.result i)).map SVal.slot)
          0 ops⟩

/-- Modelled from the spec: the component server's version check (§6, §7) —
the server compares the request's reported version against its own build
version and rejects mismatches before processing the query; the business
logic handler runs only when the check passes. -/
def serverReceive (serverVersion : Nat) (handler : CQuery → Except String Response)
    (req : Request) : Except String Response :=
  match req.version with
  | some v =>
    if v = serverVersion then handler req.query
    else .error "COMPONENT_CLIENT_VERSION_DOES_NOT_MATCH_COMPONENT_SERVER_VERSION"
  | none => handler req.query

/-! ### Claims about the send path -/

/-- C8: a microbatch flush containing exactly one enqueued operation bypasses
the `'||'` wrapping entirely: `_sendMany` behaves as a plain `_sendOne` with
the same query and options — same transmitted request, same deserialization
calls, and the same result delivered to the caller. -/
theorem claim8_single_batch_is_sendOne (c : ClientModel) (t : Transport)
    (qid : Nat) (refs : List String) (rc : Option String) :
    sendManyModel c t [⟨qid, refs, rc⟩] =
      { requests := (sendOneModel c t (.plain qid refs) rc).requests
        compDeser := (sendOneModel c t (.plain qid refs) rc).compDeser
        resultDeser := (sendOneModel c t (.plain qid refs) rc).resultDeser
        outcomes := [(sendOneModel c t (.plain qid refs) rc).outcome] } := rfl

/-- C9: in a multi-operation batch whose transport call succeeds, the shared
serialized components of the response are deserialized exactly once, against
the `rootComponent` of the first enqueued operation only; each operation's
individual result slot is deserialized against that operation's own
`rootComponent`. -/
theorem claim9_components_use_first_root (c : ClientModel) (o1 o2 : SOp) (rest : List SOp)
    (result : SVal) (comps : Option (List String)) :
    (sendManyModel c (fun _ => .ok ⟨result, comps⟩) (o1 :: o2 :: rest)).compDeser =
        [(comps, o1.rootComponent)] ∧
    (sendManyModel c (fun _ => .ok ⟨result, comps⟩) (o1 :: o2 :: rest)).resultDeser =
        mapWithIndex (fun i o => (SVal.slot (resultAt result i), o.rootComponent)) 0
          (o1 :: o2 :: rest) :=
  ⟨rfl, rfl⟩

/-- C3: in a multi-operation batch whose transport call succeeds, each
operation's outcome is a function of its own result slot alone (distributed by
positional index): an error-sentinel slot rejects only that operation with
that error, a plain value slot resolves that operation with its own value; a
failure of the transport call itself rejects every operation in the batch
with the same error. -/
theorem claim3_batch_partial_failure (c : ClientModel) (o1 o2 : SOp) (rest : List SOp)
    (slots : List SSlot) (comps : Option (List String)) (e m : String) (v : Nat) :
    (sendManyModel c (fun _ => .ok ⟨.arr slots, comps⟩) (o1 :: o2 :: rest)).outcomes =
        mapWithIndex (fun i _ => (deserializeSlot (slots.getD i .undefS)).map SVal.slot) 0
          (o1 :: o2 :: rest) ∧
    deserializeSlot (.errS m) = .error m ∧
    deserializeSlot (.val v) = .ok (.val v) ∧
    (sendManyModel c (fun _ => .error e) (o1 :: o2 :: rest)).outcomes =
        (o1 :: o2 :: rest).map (fun _ => .error e) :=
  ⟨rfl, rfl, rfl, rfl⟩

/-- C2: three operations flushed in one microbatch produce exactly one
transport `receive` call, whose query is the `'||'` envelope of the three
sub-queries in enqueue order; each of the three callers receives the
deserialization of its own result slot, selected by positional index,
whatever the other slots hold. -/
theorem claim2_batch_of_three (c : ClientModel) (t : Transport) (o1 o2 o3 : SOp)
    (resp : Response)
    (hr : t (mkRequest c
        (.batch [(o1.queryId, o1.queryRefs), (o2.queryId, o2.queryRefs),
          (o3.queryId, o3.queryRefs)])
        (serializeQueryModel c.env
          (.batch [(o1.queryId, o1.queryRefs), (o2.queryId, o2.queryRefs),
            (o3.queryId, o3.queryRefs)])).2) = .ok resp) :
    (sendManyModel c t [o1, o2, o3]).requests =
      [mkRequest c
        (.batch [(o1.queryId, o1.queryRefs), (o2.queryId, o2.queryRefs),
          (o3.queryId, o3.queryRefs)])
        (serializeQueryModel c.env
          (.batch [(o1.queryId, o1.queryRefs), (o2.queryId, o2.queryRefs),
            (o3.queryId, o3.queryRefs)])).2] ∧
    (sendManyModel c t [o1, o2, o3]).outcomes =
      [(deserializeSlot (resultAt resp.result 0)).map SVal.slot,
       (deserializeSlot (resultAt resp.result 1)).map SVal.slot,
       (deserializeSlot (resultAt resp.result 2)).map SVal.slot] := by
  have hsm : sendManyModel c t [o1, o2, o3] =
      ⟨[mkRequest c
          (.batch [(o1.queryId, o1.queryRefs), (o2.queryId, o2.queryRefs),
            (o3.queryId, o3.queryRefs)])
          (serializeQueryModel c.env
            (.batch [(o1.queryId, o1.queryRefs), (o2.queryId, o2.queryRefs),
              (o3.queryId, o3.queryRefs)])).2],
        [(resp.components, o1.rootComponent)],
        mapWithIndex (fun i o => (SVal.slot (resultAt resp.result i), o.rootComponent)) 0
          [o1, o2, o3],
        mapWithIndex (fun i _ => (deserializeSlot (resultAt resp.result i)).map SVal.slot) 0
          [o1, o2, o3]⟩ := by
    show (match t (mkRequest c
        (.batch [(o1.queryId, o1.queryRefs), (o2.queryId, o2.queryRefs),
          (o3.queryId, o3.queryRefs)])
        (serializeQueryModel c.env
          (.batch [(o1.queryId, o1.queryRefs), (o2.queryId, o2.queryRefs),
            (o3.queryId, o3.queryRefs)])).2) with
      | .error e => ManyTrace.mk _ [] [] ([o1, o2, o3].map (fun _ => .error e))
      | .ok resp => ManyTrace.mk _ [(resp.components, o1.rootComponent)]
          (mapWithIndex (fun i (o : SOp) => (SVal.slot (resultAt resp.result i), o.rootComponent))
            0 [o1, o2, o3])
          (mapWithIndex
            (fun i (_ : SOp) => (deserializeSlot (resultAt resp.result i)).map SVal.slot)
            0 [o1, o2, o3])) = _
    rw [hr]
    rfl
  rw [hsm]
  exact ⟨rfl, rfl⟩

/-- C6: against a server reporting version 1, a client configured with
`version: 2` fails every call — single or batched — with the
`VersionMismatch` error, for every business-logic handler (so the remote
method is never consulted); and the client attaches its configured version to
every transmitted request. -/
theorem claim6_version_mismatch (env : SerEnv) (handler : CQuery → Except String Response)
    (q : CQuery) (rc : Option String) (ops : List SOp) :
    (sendOneModel ⟨env, some 2⟩ (serverReceive 1 handler) q rc).outcome =
        .error "COMPONENT_CLIENT_VERSION_DOES_NOT_MATCH_COMPONENT_SERVER_VERSION" ∧
    (sendOneModel ⟨env, some 2⟩ (serverReceive 1 handler) q rc).requests.map
        (fun r => r.version) = [some 2] ∧
    (sendManyModel ⟨env, some 2⟩ (serverReceive 1 handler) ops).requests.map
        (fun r => r.version) = [some 2] ∧
    (sendManyModel ⟨env, some 2⟩ (serverReceive 1 handler) ops).outcomes =
        ops.map (fun _ =>
          .error "COMPONENT_CLIENT_VERSION_DOES_NOT_MATCH_COMPONENT_SERVER_VERSION") := by
  refine ⟨rfl, rfl, ?_, ?_⟩ <;>
    rcases ops with _ | ⟨o1, _ | ⟨o2, tl⟩⟩ <;> rfl

/-- Witness for C2: three operations against a transport answering a
three-slot batch result (slot 1 an error sentinel). -/
theorem claim2_witness :
    (sendManyModel ⟨⟨[], fun _ => [], fun _ => none⟩, none⟩
        (fun _ => .ok ⟨.arr [.val 10, .errS "boom", .val 30], none⟩)
        [⟨1, [], none⟩, ⟨2, [], none⟩, ⟨3, [], none⟩]).requests =
      [mkRequest ⟨⟨[], fun _ => [], fun _ => none⟩, none⟩
        (.batch [(1, []), (2, []), (3, [])])
        (serializeQueryModel (⟨[], fun _ => [], fun _ => none⟩ : SerEnv)
          (.batch [(1, []), (2, []), (3, [])])).2] ∧
    (sendManyModel ⟨⟨[], fun _ => [], fun _ => none⟩, none⟩
        (fun _ => .ok ⟨.arr [.val 10, .errS "boom", .val 30], none⟩)
        [⟨1, [], none⟩, ⟨2, [], none⟩, ⟨3, [], none⟩]).outcomes =
      [(deserializeSlot (resultAt (.arr [.val 10, .errS "boom", .val 30]) 0)).map SVal.slot,
       (deserializeSlot (resultAt (.arr [.val 10, .errS "boom", .val 30]) 1)).map SVal.slot,
       (deserializeSlot (resultAt (.arr [.val 10, .errS "boom", .val 30]) 2)).map SVal.slot] :=
  claim2_batch_of_three ⟨⟨[], fun _ => [], fun _ => none⟩, none⟩
    (fun _ => .ok ⟨.arr [.val 10, .errS "boom", .val 30], none⟩)
    ⟨1, [], none⟩ ⟨2, [], none⟩ ⟨3, [], none⟩
    ⟨.arr [.val 10, .errS "boom", .val 30], none⟩ rfl

/-! ### The dependency-closure claim -/

/-- Membership after folding `Set.add` over a list of names. -/
theorem mem_insertName {acc : List String} {a x : String} :
    x ∈ insertName acc a ↔ x ∈ acc ∨ x = a := by
  by_cases h : a ∈ acc
  · simp only [insertName, if_pos h]
    exact ⟨Or.inl, fun h' => h'.elim id (fun hx => hx ▸ h)⟩
  · simp [insertName, if_neg h]

theorem mem_foldl_insertName (l : List String) : ∀ (acc : List String) (x : String),
    x ∈ l.foldl insertName acc ↔ x ∈ acc ∨ x ∈ l := by
  induction l with
  | nil => simp
  | cons a l ih =>
    intro acc x
    rw [List.foldl_cons, ih, mem_insertName]
    simp only [List.mem_cons]
    tauto

/-- Folding `Set.add` preserves duplicate-freeness. -/
theorem nodup_foldl_insertName (l : List String) : ∀ acc : List String,
    acc.Nodup → (l.foldl insertName acc).Nodup := by
  induction l with
  | nil => exact fun acc h => h
  | cons a l ih =>
    intro acc h
    rw [List.foldl_cons]
    refine ih _ ?_
    by_cases ha : a ∈ acc
    · simpa [insertName, if_pos ha] using h
    · simp [insertName, if_neg ha, List.nodup_append, h, ha]

/-- The dependency environment of the claim's scenario: component `A` depends
on `B` and `B` depends on `C`; serializing a class's definition yields one
entry, tagged here by the class name. -/
def abcDepEnv : SerEnv where
  classes := ["A", "B", "C"]
  deps := fun n => if n = "A" then ["B"] else if n = "B" then ["C"] else []
  entry := fun n => some n

/-- C1: serializing any query over the component graph `A → B → C` — the
query referencing `A` at least once and each of `A`, `B`, `C` any number of
times — produces a `serializedComponents` list containing exactly one entry
for `B` and exactly one entry for `C`: the closure loop serializes every
discovered class at most once (handled-set) and repeats until the dependency
set is empty. -/
theorem claim1_dependency_closure (refs : List String)
    (hsub : refs ⊆ ["A", "B", "C"]) (hA : "A" ∈ refs) :
    ((serializeQueryModel abcDepEnv (.plain 0 refs)).2).count "B" = 1 ∧
    ((serializeQueryModel abcDepEnv (.plain 0 refs)).2).count "C" = 1 := by
  have hmem : ∀ x, x ∈ refs.foldl insertName [] ↔ x ∈ refs := by
    simp [mem_foldl_insertName]
  have hnd : (refs.foldl insertName []).Nodup :=
    nodup_foldl_insertName refs [] (by simp)
  show (serializeDepsLoop abcDepEnv 4 [] [] (refs.foldl insertName [])).count "B" = 1 ∧
    (serializeDepsLoop abcDepEnv 4 [] [] (refs.foldl insertName [])).count "C" = 1
  set S := refs.foldl insertName [] with hS
  have hsubS : S ⊆ ["A", "B", "C"] := fun x hx => hsub ((hmem x).1 hx)
  have hAS : "A" ∈ S := (hmem "A").2 hA
  have hlen : S.length ≤ 3 :=
    (List.subperm_of_subset hnd hsubS).length_le
  clear_value S
  clear hS hmem hsub hA
  rcases S with _ | ⟨a, _ | ⟨b, _ | ⟨c, _ | ⟨d, tl⟩⟩⟩⟩
  · simp at hAS
  · have ha : a = "A" ∨ a = "B" ∨ a = "C" := by simpa using hsubS (by simp)
    rcases ha with rfl | rfl | rfl <;> revert hnd hAS <;> decide
  · have ha : a = "A" ∨ a = "B" ∨ a = "C" := by simpa using hsubS (by simp)
    have hb : b = "A" ∨ b = "B" ∨ b = "C" := by simpa using hsubS (by simp)
    rcases ha with rfl | rfl | rfl <;> rcases hb with rfl | rfl | rfl <;>
      revert hnd hAS <;> decide
  · have ha : a = "A" ∨ a = "B" ∨ a = "C" := by simpa using hsubS (by simp)
    have hb : b = "A" ∨ b = "B" ∨ b = "C" := by simpa using hsubS (by simp)
    have hc : c = "A" ∨ c = "B" ∨ c = "C" := by simpa using hsubS (by simp)
    rcases ha with rfl | rfl | rfl <;> rcases hb with rfl | rfl | rfl <;>
      rcases hc with rfl | rfl | rfl <;> revert hnd hAS <;> decide
  · simp at hlen

/-- Witness for C1: the query references `A` once, `B` twice and `C` once. -/
theorem claim1_witness :
    (["A", "B", "B", "C", "A"] : List String) ⊆ ["A", "B", "C"] ∧
    "A" ∈ (["A", "B", "B", "C", "A"] : List String) ∧
    (((serializeQueryModel abcDepEnv (.plain 0 ["A", "B", "B", "C", "A"])).2).count "B" = 1 ∧
     ((serializeQueryModel abcDepEnv (.plain 0 ["A", "B", "B", "C", "A"])).2).count "C" = 1) :=
  ⟨by rw [List.subset_def]; decide, by decide,
    claim1_dependency_closure _ (by rw [List.subset_def]; decide) (by decide)⟩

/-! ### The client attribute filter -/

/-- A remote attribute: whether it allows the `'set'` operation. -/
structure RemoteAttrM where
  setAllowed : Bool
deriving DecidableEq

/-- A remote component: its attributes by name. -/
structure RemoteComponentM where
  attrs : List (String × RemoteAttrM)
deriving DecidableEq

/-- A local component as the attribute filter sees it: its remote component,
when it has one, and the names of its currently-set attributes. -/
structure LocalComponentM where
  remoteComponent : Option RemoteComponentM
  setAttrs : List String
deriving DecidableEq

/-- The `attributeFilter` installed by `_serializeQuery` (from the source):
exclude properties that cannot be set in the remote components — `false` when
the owning component has no remote component, `false` when the remote
component has no attribute of the same name, otherwise whether the remote
attribute allows the `'set'` operation. -/
def clientAttributeFilter (c : LocalComponentM) (attributeName : String) : Bool :=
  match c.remoteComponent with
  | none => false
  | some remoteComponent =>
    match List.lookup attributeName remoteComponent.attrs with
    | none => false
    | some remoteAttribute => remoteAttribute.setAllowed

/-- Modelled from the spec: serialization emits exactly the set attributes
that pass the attribute filter (§4.2, steps 4 and 7); every other attribute
is omitted from the wire payload. -/
def serializedAttrNames (c : LocalComponentM) : List String :=
  c.setAttrs.filter (fun n => clientAttributeFilter c n)

/-- C10: an attribute appears in the client's wire payload exactly when it is
set on the local component, the component has a remote component, the remote
component has an attribute of the same name, and that remote attribute allows
the `'set'` operation; in every other case it is silently omitted. -/
theorem claim10_attribute_filter (c : LocalComponentM) (n : String) :
    n ∈ serializedAttrNames c ↔
      n ∈ c.setAttrs ∧
      ∃ remoteComponent, c.remoteComponent = some remoteComponent ∧
        ∃ remoteAttribute,
          List.lookup n remoteComponent.attrs = some remoteAttribute ∧
          remoteAttribute.setAllowed = true := by
  simp only [serializedAttrNames, List.mem_filter]
  cases hrc : c.remoteComponent with
  | none => simp [clientAttributeFilter, hrc]
  | some remoteComponent =>
    cases hl : List.lookup n remoteComponent.attrs with
    | none => simp [clientAttributeFilter, hrc, hl]
    | some remoteAttribute => simp [clientAttributeFilter, hrc, hl]

end Layr
